import Mathlib

/-!
Verification of the hh-tracker-worker ingestion core.

The definitions below are a shallow embedding of the TypeScript sources:
`src/parser.ts` (segmentation, field extraction, classification, dedup),
`src/hash.ts` (FNV-1a 64-bit fingerprint), `src/storage.ts` (buffer store,
idempotent event gate, top-companies aggregation) and `src/index.ts`
(finalize flow).  Lines are modelled as `List Char`; JS semantics (UTF-16
code units, the ASCII-only word class of `\b`, `\s`, `toLowerCase`) are made
explicit.
-/

set_option maxRecDepth 20000

namespace HHTracker

/-- The ECMAScript word-character class used by the `\b` assertion when the
`u` flag is absent: exactly `[a-zA-Z0-9_]`.  Cyrillic letters are NOT word
characters in JS. -/
def jsWordChar (c : Char) : Bool :=
  decide (('a' ≤ c ∧ c ≤ 'z') ∨ ('A' ≤ c ∧ c ≤ 'Z') ∨ ('0' ≤ c ∧ c ≤ '9') ∨ c = '_')

/-- The `\d` class: ASCII digits. -/
def isDigitC (c : Char) : Bool :=
  decide ('0' ≤ c ∧ c ≤ '9')

/-- The ECMAScript `\s` class (WhiteSpace ∪ LineTerminator). -/
def jsSpace (c : Char) : Bool :=
  decide (c.toNat = 0x20 ∨ c.toNat = 0x09 ∨ c.toNat = 0x0a ∨ c.toNat = 0x0b ∨
    c.toNat = 0x0c ∨ c.toNat = 0x0d ∨ c.toNat = 0xa0 ∨ c.toNat = 0x1680 ∨
    (0x2000 ≤ c.toNat ∧ c.toNat ≤ 0x200a) ∨ c.toNat = 0x2028 ∨ c.toNat = 0x2029 ∨
    c.toNat = 0x202f ∨ c.toNat = 0x205f ∨ c.toNat = 0x3000 ∨ c.toNat = 0xfeff)

/-- The character class `[а-яё]` of the date regex (the input it is applied
to is always pre-lowercased, so only the lowercase range is reachable). -/
def cyrChar (c : Char) : Bool :=
  decide ((0x430 ≤ c.toNat ∧ c.toNat ≤ 0x44f) ∨ c.toNat = 0x451)

/-- JS `String.prototype.toLowerCase`, restricted to the alphabets this
program processes: ASCII Latin `A-Z` and Cyrillic `А-Я`, `Ё`. -/
def jsLowerChar (c : Char) : Char :=
  if 'A' ≤ c ∧ c ≤ 'Z' then Char.ofNat (c.toNat + 32)
  else if 0x410 ≤ c.toNat ∧ c.toNat ≤ 0x42f then Char.ofNat (c.toNat + 0x20)
  else if c.toNat = 0x401 then Char.ofNat 0x451
  else c

/-- Lowercase a whole line. -/
def jsLower (l : List Char) : List Char :=
  l.map jsLowerChar

/-- JS `String.prototype.includes` on character lists. -/
def listContains (hay needle : List Char) : Bool :=
  match hay with
  | [] => needle.isEmpty
  | c :: t => needle.isPrefixOf (c :: t) || listContains t needle

/-- JS `String.prototype.trim` (both ends, `\s`-style whitespace). -/
def jsTrim (l : List Char) : List Char :=
  ((l.dropWhile jsSpace).reverse.dropWhile jsSpace).reverse

/-- JS `String.prototype.split("\n")`. -/
def splitLinesAux (cs : List Char) (acc : List Char) : List (List Char) :=
  match cs with
  | [] => [acc.reverse]
  | c :: rest =>
    if c = '\n' then acc.reverse :: splitLinesAux rest []
    else splitLinesAux rest (c :: acc)

/-- The six status labels of `parser.ts` (`VALID_STATUSES`). -/
def VALID_STATUSES : List String :=
  ["Отказ", "Просмотрен", "Не просмотрен", "Собеседование", "Приглашение", "Тестовое"]

/-- Boilerplate noise substrings of `parser.ts` (`IGNORE_SUBSTRINGS`). -/
def IGNORE_SUBSTRINGS : List String :=
  ["Employer Logo", "Был онлайн", "Разбирает", "Получите работу быстрее",
   "подпиской hh PRO", "доступ к статистике"]

/-- The twelve genitive month names of `parser.ts` (`MONTHS`). -/
def MONTHS : List String :=
  ["января", "февраля", "марта", "апреля", "мая", "июня",
   "июля", "августа", "сентября", "октября", "ноября", "декабря"]

/-- Model of `isIgnorable` in `parser.ts`: the line contains some noise substring. -/
def isIgnorable (l : List Char) : Bool :=
  IGNORE_SUBSTRINGS.any fun s => listContains l s.toList

/-- Full-line equality against one of the six status labels. -/
def isStatus (l : List Char) : Bool :=
  VALID_STATUSES.any fun s => l == s.toList

/-- The line-cleaning pipeline at the top of `parseHHBuffer`:
split on newlines, trim, drop empties, drop noise lines. -/
def cleanLines (text : String) : List (List Char) :=
  (((splitLinesAux text.toList []).map jsTrim).filter fun l => !l.isEmpty).filter
    fun l => !isIgnorable l

/-- Attempt of the regex `\b(\d{1,2})\s+([а-яё]+)\b` at one start position
(the position must already satisfy the leading `\b`).  Returns the two
capture groups.  Faithful to ECMAScript backtracking: the `\d{1,2}` choice is
forced (a second digit, if present, must be taken, since the one-digit
alternative then faces a digit where `\s` is required), `\s+` and `[а-яё]+`
take maximal runs (their classes are disjoint from what must follow, and an
interior stop of the letter run cannot satisfy the final `\b`), and the final
`\b` after a Cyrillic letter — a non-word character in JS — holds only when
an ASCII word character follows. -/
def matchAt (s : List Char) : Option (List Char × List Char) :=
  match s with
  | [] => none
  | c1 :: rest =>
    if isDigitC c1 then
      let step :=
        match rest with
        | c2 :: rest2 => if isDigitC c2 then ([c1, c2], rest2) else ([c1], rest)
        | [] => ([c1], ([] : List Char))
      let sp := step.2.takeWhile jsSpace
      let rest3 := step.2.dropWhile jsSpace
      if sp.isEmpty then none
      else
        let mon := rest3.takeWhile cyrChar
        let rest4 := rest3.dropWhile cyrChar
        if mon.isEmpty then none
        else
          match rest4 with
          | c4 :: _ => if jsWordChar c4 then some (step.1, mon) else none
          | [] => none
    else none

/-- Left-to-right scan of `line.match(/\b(\d{1,2})\s+([а-яё]+)\b/i)`:
first start position where the pattern matches wins.  `prev` is the
character before the current position, for the leading `\b` (the first
matched character is a digit, hence a word character, so the boundary holds
exactly when `prev` is absent or not a word character). -/
def dateFindGo (prev : Option Char) (s : List Char) : Option (List Char × List Char) :=
  match s with
  | [] => none
  | c :: cs =>
    match (if (prev.map jsWordChar).getD false then none else matchAt (c :: cs)) with
    | some r => some r
    | none => dateFindGo (some c) cs

/-- Model of `line.match(/\b(\d{1,2})\s+([а-яё]+)\b/i)` on a whole line. -/
def dateFind (s : List Char) : Option (List Char × List Char) :=
  dateFindGo none s

/-- Model of `extractDate` in `parser.ts`: first line that is exactly
"сегодня"/"вчера" (case-insensitively; the original line is returned), or
whose first regex match has a month from `MONTHS` (the lowercased matched
fragment is returned). -/
def extractDate (blockLines : List (List Char)) : Option String :=
  match blockLines with
  | [] => none
  | l :: ls =>
    let line := jsLower l
    if line = "сегодня".toList ∨ line = "вчера".toList then some (String.mk l)
    else
      match dateFind line with
      | some (d, mon) =>
        if MONTHS.any fun m => mon == m.toList then some (String.mk (d ++ ' ' :: mon))
        else extractDate ls
      | none => extractDate ls

/-- The per-line date test of the candidate filter inside `flush`
(`parser.ts` lines 121–127); the same predicate `extractDate` applies
line-by-line. -/
def isDateLine (l : List Char) : Bool :=
  let low := jsLower l
  decide (low = "сегодня".toList ∨ low = "вчера".toList) ||
    (match dateFind low with
     | some (_, mon) => MONTHS.any fun m => mon == m.toList
     | none => false)

/-- Role-family tags of `ParsedResponse` in `parser.ts`. -/
inductive RoleFamily
  | product
  | project
  | product_marketing
  | product_analytics
  | other
  deriving DecidableEq, Repr

/-- Grade tags of `ParsedResponse` in `parser.ts`. -/
inductive Grade
  | junior
  | middle
  | senior
  deriving DecidableEq, Repr

/-- Model of `ParsedResponse` in `parser.ts`. -/
structure ParsedResponse where
  title : String
  company : String
  status : String
  responseDate : String
  roleFamily : RoleFamily
  grade : Grade
  hash : String
  raw : String
  deriving DecidableEq, Repr

/-- Model of `detectRoleFamily` in `parser.ts`: ordered substring rules over the
lowercased title. -/
def detectRoleFamily (title : String) : RoleFamily :=
  let t := jsLower title.toList
  let hasProduct := listContains t "product".toList || listContains t "продакт".toList ||
    listContains t "продукт".toList || listContains t "менеджер по продукт".toList
  let hasProject := listContains t "project".toList || listContains t "проджект".toList ||
    listContains t "проект".toList
  let hasAnalyst := listContains t "analyst".toList || listContains t "аналит".toList ||
    listContains t "analytics".toList || listContains t "аналитик".toList
  let hasMarketing := listContains t "marketing".toList || listContains t "маркетинг".toList ||
    listContains t "growth".toList || listContains t "гроус".toList ||
    listContains t "performance".toList
  if hasMarketing && (hasProduct || listContains t "product marketing".toList ||
      listContains t "продакт маркет".toList) then .product_marketing
  else if hasAnalyst && (hasProduct || listContains t "product analyst".toList ||
      listContains t "продакт аналит".toList) then .product_analytics
  else if hasProject then .project
  else if hasProduct then .product
  else if hasAnalyst then .product_analytics
  else .other

/-- The junior/entry markers of `detectGrade` (`/(junior|джун|младш|intern|стаж)/i`). -/
def hasJuniorMarker (t : List Char) : Bool :=
  listContains t "junior".toList || listContains t "джун".toList ||
    listContains t "младш".toList || listContains t "intern".toList ||
    listContains t "стаж".toList

/-- The lead/senior markers of `detectGrade` (`/(senior|старш|lead|head|руковод)/i`). -/
def hasSeniorMarker (t : List Char) : Bool :=
  listContains t "senior".toList || listContains t "старш".toList ||
    listContains t "lead".toList || listContains t "head".toList ||
    listContains t "руковод".toList

/-- Model of `detectGrade` in `parser.ts`: junior markers first, then senior markers,
default middle. -/
def detectGrade (title : String) : Grade :=
  let t := jsLower title.toList
  if hasJuniorMarker t then .junior
  else if hasSeniorMarker t then .senior
  else .middle

/-- UTF-16 code units of a character, as read by JS `charCodeAt`. -/
def utf16Units (c : Char) : List Nat :=
  if c.toNat < 0x10000 then [c.toNat]
  else [0xd800 + (c.toNat - 0x10000) / 0x400, 0xdc00 + (c.toNat - 0x10000) % 0x400]

/-- One step of the FNV-1a accumulation of `hash.ts`: xor the code unit in,
multiply by the FNV prime, keep 64 bits. -/
def fnv1a64Step (h u : Nat) : Nat :=
  ((h ^^^ u) * 0x100000001b3) % 2 ^ 64

/-- The 64-bit FNV-1a accumulation of `fnv1a64Hex` over the UTF-16 code
units of the input. -/
def fnv1a64 (input : String) : Nat :=
  ((input.toList.map utf16Units).flatten).foldl fnv1a64Step 0xcbf29ce484222325

/-- Model of `hash.toString(16).padStart(16, "0")`. -/
def toHex16 (n : Nat) : String :=
  let ds := Nat.toDigits 16 n
  String.mk (List.replicate (16 - ds.length) '0' ++ ds)

/-- Model of `fnv1a64Hex` in `hash.ts`. -/
def fnv1a64Hex (input : String) : String :=
  toHex16 (fnv1a64 input)

/-- The record fingerprint exactly as computed in `flush`
(`parser.ts` line 134): the four fields joined with `"|"`, hashed. -/
def fingerprint (title company date status : String) : String :=
  fnv1a64Hex (title ++ "|" ++ company ++ "|" ++ date ++ "|" ++ status)

/-- Model of `flush` in `parseHHBuffer`: field extraction and record construction
from a completed block and its status line. -/
def flushRecord (block : List (List Char)) (status : List Char) : ParsedResponse :=
  let payload := block.filter fun l => !isStatus l
  let date := (extractDate payload).getD "Unknown"
  let candidates := payload.filter fun l => !isDateLine l
  let title := match candidates with
    | [] => "Unknown"
    | t :: _ => String.mk t
  let company := match candidates with
    | _ :: c :: _ => String.mk c
    | _ => "Unknown"
  let statusS := String.mk status
  { title := title, company := company, status := statusS, responseDate := date,
    roleFamily := detectRoleFamily title, grade := detectGrade title,
    hash := fingerprint title company date statusS,
    raw := title ++ " | " ++ company ++ " | " ++ date ++ " | " ++ statusS }

/-- The segmentation loop of `parseHHBuffer`: accumulate non-status lines
into `block`; a status line flushes a non-empty block and resets it; a
trailing block is discarded. -/
def segmentGo (lines block : List (List Char)) : List ParsedResponse :=
  match lines with
  | [] => []
  | l :: ls =>
    if isStatus l then
      (if block.isEmpty then [] else [flushRecord block l]) ++ segmentGo ls []
    else segmentGo ls (block ++ [l])

/-- The records flushed by `parseHHBuffer` before the dedup pass (`out` in
the source). -/
def flushedRecords (text : String) : List ParsedResponse :=
  segmentGo (cleanLines text) []

/-- The within-call dedup loop of `parseHHBuffer`: keep the first record of
each fingerprint. -/
def dedupByHash (rs : List ParsedResponse) (seen : List String) : List ParsedResponse :=
  match rs with
  | [] => []
  | r :: rest =>
    if r.hash ∈ seen then dedupByHash rest seen
    else r :: dedupByHash rest (r.hash :: seen)

/-- Model of `parseHHBuffer` in `parser.ts`. -/
def parseHHBuffer (text : String) : List ParsedResponse :=
  dedupByHash (flushedRecords text) []

/-- Independent count of the status lines that are preceded by at least one
accumulated non-status line since the previous status line; `acc` says
whether the current block is non-empty. -/
def countQualifying (lines : List (List Char)) (acc : Bool) : Nat :=
  match lines with
  | [] => 0
  | l :: ls =>
    if isStatus l then (if acc then 1 else 0) + countQualifying ls false
    else countQualifying ls true

/-! ### Storage state (`storage.ts`) -/

/-- The `buffers` table: at most one row per user, holding `buffer_text`. -/
def Buffers : Type := Nat → Option String

/-- The empty `buffers` table. -/
def emptyBuffers : Buffers := fun _ => none

/-- Model of `getBuffer` in `storage.ts`: the stored text, or `""` when no row
exists. -/
def getBuffer (b : Buffers) (u : Nat) : String :=
  (b u).getD ""

/-- Model of `clearBuffer` in `storage.ts`: `DELETE FROM buffers WHERE user_id = ?`. -/
def clearBuffer (b : Buffers) (u : Nat) : Buffers :=
  fun v => if v = u then none else b v

/-- Model of `appendToBuffer` in `storage.ts`: when a row exists, an `UPDATE`
concatenating a newline and the new text; otherwise an `INSERT` of the bare
text. -/
def appendToBuffer (b : Buffers) (u : Nat) (t : String) : Buffers :=
  match b u with
  | some ex => fun v => if v = u then some (ex ++ "\n" ++ t) else b v
  | none => fun v => if v = u then some t else b v

/-- Model of `markUpdateProcessed` in `storage.ts`: `INSERT ... ON CONFLICT(update_id)
DO NOTHING` into `processed_updates`, reporting whether a row was inserted
(`meta.changes === 1`).  The state is the set of stored update ids. -/
def markUpdateProcessed (s : List Nat) (updateId : Nat) : Bool × List Nat :=
  if updateId ∈ s then (false, s) else (true, updateId :: s)

/-- A sequence of `markUpdateProcessed` calls, state-threaded.  This is the
only operation in `storage.ts` that touches `processed_updates`. -/
def runGate (s : List Nat) (ids : List Nat) : List Nat :=
  ids.foldl (fun st i => (markUpdateProcessed st i).2) s

/-- One row of the `responses` table as inserted by `addResponses` (only the
columns the claims mention). -/
structure RespRow where
  userId : Nat
  record : ParsedResponse
  deriving DecidableEq

/-- One statement of the `addResponses` batch: `INSERT ... ON
CONFLICT(user_id, hash) DO NOTHING`, reporting `meta.changes`. -/
def insertIfAbsent (rows : List RespRow) (u : Nat) (p : ParsedResponse) :
    List RespRow × Nat :=
  if rows.any (fun r => r.userId == u && r.record.hash == p.hash) then (rows, 0)
  else (rows ++ [⟨u, p⟩], 1)

/-- Model of `addResponses` in `storage.ts`: batch the inserts, sum the per-statement
change counts into `inserted`; `duplicates` is the remainder. -/
def addResponses (rows : List RespRow) (u : Nat) (parsed : List ParsedResponse) :
    List RespRow × Nat :=
  match parsed with
  | [] => (rows, 0)
  | p :: ps =>
    let step := insertIfAbsent rows u p
    let rest := addResponses step.1 u ps
    (rest.1, step.2 + rest.2)

/-- The database state the finalize flow touches. -/
structure Store where
  buffers : Buffers
  responses : List RespRow

/-- The finalize flow `handleDoneImport` of `index.ts`, restricted to its
database effects (outgoing chat messages do not change the store, and the
fire-and-forget `enrichCompanies` touches only the enrichment cache).
`insertFails` injects a storage failure of the `addResponses` insert: the
raised rejection propagates before `clearBuffer` runs, and the D1 batch is
transactional, so a failed insert leaves the tables as they were.  Returns
the resulting store and whether the flow ran to completion. -/
def handleDoneImport (insertFails : Bool) (st : Store) (u : Nat) : Store × Bool :=
  let bufferText := getBuffer st.buffers u
  if bufferText = "" then (st, true)
  else
    let parsed := parseHHBuffer bufferText
    if parsed.isEmpty then (st, true)
    else if insertFails then (st, false)
    else
      let afterInsert : Store := { st with responses := (addResponses st.responses u parsed).1 }
      ({ afterInsert with buffers := clearBuffer afterInsert.buffers u }, true)

/-- Code-point lexicographic order on character lists — the company-name
order (SQLite BINARY collation compares the UTF-8 bytes, which orders
strings by code point). -/
def charListLe (a b : List Char) : Bool :=
  match a, b with
  | [], _ => true
  | _ :: _, [] => false
  | x :: xs, y :: ys =>
    if x.toNat < y.toNat then true
    else if y.toNat < x.toNat then false
    else charListLe xs ys

/-- Result order of the top-companies query of `getUserStats`: descending
count, company-name order among equal counts.
Modelled from the spec: the query text `GROUP BY company ORDER BY count DESC
LIMIT 5` is in `storage.ts`, but it is executed by the database engine,
which is not part of src/; the engine leaves the relative order of
equal-count groups unspecified, and the spec fixes it to encounter/
company-name order. -/
def topOrder (a b : String × Nat) : Prop :=
  b.2 < a.2 ∨ (a.2 = b.2 ∧ charListLe a.1.toList b.1.toList = true)

instance : DecidableRel topOrder := fun a b =>
  if h : b.2 < a.2 ∨ (a.2 = b.2 ∧ charListLe a.1.toList b.1.toList = true) then .isTrue h
  else .isFalse h

theorem charListLe_cons (x y : Char) (xs ys : List Char) :
    charListLe (x :: xs) (y :: ys) =
      if x.toNat < y.toNat then true
      else if y.toNat < x.toNat then false
      else charListLe xs ys := rfl

theorem charListLe_trans : ∀ a b c : List Char,
    charListLe a b = true → charListLe b c = true → charListLe a c = true := by
  intro a
  induction a with
  | nil => intro b c _ _; rfl
  | cons x xs ih =>
    intro b c hab hbc
    cases b with
    | nil => simp [charListLe] at hab
    | cons y ys =>
      cases c with
      | nil => simp [charListLe] at hbc
      | cons z zs =>
        rw [charListLe_cons] at hab hbc ⊢
        rcases Nat.lt_trichotomy x.toNat y.toNat with h1 | h1 | h1
        · rcases Nat.lt_trichotomy y.toNat z.toNat with h2 | h2 | h2
          · have hxz : x.toNat < z.toNat := by omega
            rw [if_pos hxz]
          · have hxz : x.toNat < z.toNat := by omega
            rw [if_pos hxz]
          · have hyz : ¬y.toNat < z.toNat := by omega
            rw [if_neg hyz, if_pos h2] at hbc
            exact absurd hbc (by simp)
        · rcases Nat.lt_trichotomy y.toNat z.toNat with h2 | h2 | h2
          · have hxz : x.toNat < z.toNat := by omega
            rw [if_pos hxz]
          · have hn1 : ¬x.toNat < y.toNat := by omega
            have hn2 : ¬y.toNat < x.toNat := by omega
            have hn3 : ¬y.toNat < z.toNat := by omega
            have hn4 : ¬z.toNat < y.toNat := by omega
            have hn5 : ¬x.toNat < z.toNat := by omega
            have hn6 : ¬z.toNat < x.toNat := by omega
            rw [if_neg hn1, if_neg hn2] at hab
            rw [if_neg hn3, if_neg hn4] at hbc
            rw [if_neg hn5, if_neg hn6]
            exact ih ys zs hab hbc
          · have hyz : ¬y.toNat < z.toNat := by omega
            rw [if_neg hyz, if_pos h2] at hbc
            exact absurd hbc (by simp)
        · have hxy : ¬x.toNat < y.toNat := by omega
          rw [if_neg hxy, if_pos h1] at hab
          exact absurd hab (by simp)

theorem charListLe_total : ∀ a b : List Char,
    charListLe a b = true ∨ charListLe b a = true := by
  intro a
  induction a with
  | nil => intro b; exact Or.inl rfl
  | cons x xs ih =>
    intro b
    cases b with
    | nil => exact Or.inr rfl
    | cons y ys =>
      rcases Nat.lt_trichotomy x.toNat y.toNat with h1 | h1 | h1
      · refine Or.inl ?_
        rw [charListLe_cons, if_pos h1]
      · have hn1 : ¬x.toNat < y.toNat := by omega
        have hn2 : ¬y.toNat < x.toNat := by omega
        rcases ih ys with hxy | hyx
        · refine Or.inl ?_
          rw [charListLe_cons, if_neg hn1, if_neg hn2]
          exact hxy
        · refine Or.inr ?_
          rw [charListLe_cons, if_neg hn2, if_neg hn1]
          exact hyx
      · refine Or.inr ?_
        rw [charListLe_cons, if_pos h1]

instance : IsTrans (String × Nat) topOrder := by
  constructor
  intro a b c hab hbc
  rcases hab with h1 | ⟨h1, h1n⟩ <;> rcases hbc with h2 | ⟨h2, h2n⟩
  · exact Or.inl (h2.trans h1)
  · exact Or.inl (h2 ▸ h1)
  · exact Or.inl (h1.symm ▸ h2)
  · exact Or.inr ⟨h1.trans h2, charListLe_trans _ _ _ h1n h2n⟩

instance : IsTotal (String × Nat) topOrder := by
  constructor
  intro a b
  rcases lt_trichotomy a.2 b.2 with h | h | h
  · exact Or.inr (Or.inl h)
  · rcases charListLe_total a.1.toList b.1.toList with hn | hn
    · exact Or.inl (Or.inr ⟨h, hn⟩)
    · exact Or.inr (Or.inr ⟨h.symm, hn⟩)
  · exact Or.inl (Or.inl h)

/-- The `GROUP BY company` step: one `(name, COUNT(*))` pair per distinct
company of the filtered window. -/
def companyCounts (companies : List String) : List (String × Nat) :=
  companies.dedup.map fun c => (c, companies.count c)

/-- The top-companies query of `getUserStats` (`storage.ts` lines 129–136):
group, order by `topOrder`, `LIMIT 5`.  `companies` is the company column of
the window-filtered rows. -/
def topCompanies (companies : List String) : List (String × Nat) :=
  ((companyCounts companies).insertionSort topOrder).take 5

end HHTracker

/-!
### Theorems

Helper lemmas first, then one theorem per claim.
-/

namespace HHTracker

theorem string_mk_toList (s : String) : String.mk s.toList = s := rfl

theorem mem_markUpdateProcessed (s : List Nat) (i x : Nat) (h : x ∈ s) :
    x ∈ (markUpdateProcessed s i).2 := by
  unfold markUpdateProcessed
  split
  · exact h
  · exact List.mem_cons_of_mem i h

theorem mem_runGate (ids : List Nat) (s : List Nat) (x : Nat) (h : x ∈ s) :
    x ∈ runGate s ids := by
  induction ids generalizing s with
  | nil => exact h
  | cons i is ih =>
    show x ∈ runGate (markUpdateProcessed s i).2 is
    exact ih _ (mem_markUpdateProcessed s i x h)

/-- C5: the first `markUpdateProcessed` call for an unseen update id returns
true and records the id; a call for a recorded id returns false and leaves
the state unchanged; no call removes a recorded id, so after any further
sequence of calls the id is still recorded and a repeated call still
returns false. -/
theorem event_gate_idempotent (s : List Nat) (updateId : Nat) :
    (updateId ∉ s →
      (markUpdateProcessed s updateId).1 = true ∧
        updateId ∈ (markUpdateProcessed s updateId).2) ∧
    (updateId ∈ s →
      (markUpdateProcessed s updateId).1 = false ∧
        (markUpdateProcessed s updateId).2 = s) ∧
    (∀ other, updateId ∈ s → updateId ∈ (markUpdateProcessed s other).2) ∧
    (∀ ids, updateId ∈ s →
      (markUpdateProcessed (runGate s ids) updateId).1 = false) := by
  refine ⟨fun h => ?_, fun h => ?_, fun other h => ?_, fun ids h => ?_⟩
  · simp [markUpdateProcessed, h]
  · simp [markUpdateProcessed, h]
  · exact mem_markUpdateProcessed s other updateId h
  · simp [markUpdateProcessed, mem_runGate ids s updateId h]

/-- Witness for C5 at concrete inputs. -/
theorem event_gate_idempotent_witness :
    (markUpdateProcessed [] 7).1 = true ∧ 7 ∈ (markUpdateProcessed [] 7).2 ∧
    (markUpdateProcessed [7] 7).1 = false ∧
    (markUpdateProcessed (runGate [7] [3, 9, 7]) 7).1 = false :=
  ⟨((event_gate_idempotent [] 7).1 (by decide)).1,
   ((event_gate_idempotent [] 7).1 (by decide)).2,
   ((event_gate_idempotent [7] 7).2.1 (by decide)).1,
   (event_gate_idempotent [7] 7).2.2.2 [3, 9, 7] (by decide)⟩

/-- C6: `appendToBuffer` concatenates with a newline separator onto an
existing row and creates the row when absent, `getBuffer` reads the stored
text or `""` when no row exists, `clearBuffer` deletes the row; in
particular appending "a" then "b" from empty reads back "a\nb", and after a
clear the read is "". -/
theorem buffer_store_semantics (b : Buffers) (u : Nat) (t : String) :
    (getBuffer (appendToBuffer b u t) u =
      if (b u).isSome then getBuffer b u ++ "\n" ++ t else t) ∧
    ((appendToBuffer b u t) u).isSome = true ∧
    getBuffer (clearBuffer b u) u = "" ∧
    (clearBuffer b u) u = none ∧
    getBuffer (appendToBuffer (appendToBuffer emptyBuffers u "a") u "b") u = "a\nb" ∧
    getBuffer emptyBuffers u = "" := by
  refine ⟨?_, ?_, ?_, ?_, ?_, ?_⟩
  · cases hb : b u <;> simp [appendToBuffer, getBuffer, hb]
  · cases hb : b u <;> simp [appendToBuffer, hb]
  · simp [clearBuffer, getBuffer]
  · simp [clearBuffer]
  · simp [appendToBuffer, getBuffer, emptyBuffers]
  · simp [getBuffer, emptyBuffers]

/-- C4: `detectGrade` checks the junior markers before the senior markers,
so a title matching both resolves to junior; a title matching neither
resolves to the default middle; the result is always one of the three
grade tags. -/
theorem grade_classifier_order (title : String) :
    (hasJuniorMarker (jsLower title.toList) = true ∧
        hasSeniorMarker (jsLower title.toList) = true →
      detectGrade title = Grade.junior) ∧
    (hasJuniorMarker (jsLower title.toList) = false ∧
        hasSeniorMarker (jsLower title.toList) = false →
      detectGrade title = Grade.middle) ∧
    (detectGrade title = Grade.junior ∨ detectGrade title = Grade.middle ∨
      detectGrade title = Grade.senior) := by
  cases hj : hasJuniorMarker (jsLower title.toList) <;>
    cases hs : hasSeniorMarker (jsLower title.toList) <;>
      simp only [String.toList] at hj hs <;>
        simp [detectGrade, hj, hs]

/-- Witness for C4: a title with both a junior and a senior marker resolves
to junior. -/
theorem grade_classifier_order_witness :
    detectGrade "Junior Team Lead" = Grade.junior :=
  (grade_classifier_order "Junior Team Lead").1 ⟨by decide, by decide⟩

/-- C9: the fingerprint is the hash of the fields joined with "|" and no
escaping, so any two tuples whose joined strings coincide collide; the
distinct tuples ("a|","b") and ("a","|b") collide exactly, and within one
`parseHHBuffer` call the two corresponding genuinely different blocks are
silently merged into the single first record. -/
theorem fingerprint_separator_collision :
    (∀ t c d s t2 c2 d2 s2 : String,
      t ++ "|" ++ c ++ "|" ++ d ++ "|" ++ s = t2 ++ "|" ++ c2 ++ "|" ++ d2 ++ "|" ++ s2 →
      fingerprint t c d s = fingerprint t2 c2 d2 s2) ∧
    fingerprint "a|" "b" "Unknown" "Отказ" = fingerprint "a" "|b" "Unknown" "Отказ" ∧
    ¬("a|" = "a" ∧ "b" = "|b") ∧
    ((parseHHBuffer "a|\nb\nОтказ\na\n|b\nОтказ").map fun r => (r.title, r.company)) =
      [("a|", "b")] := by
  refine ⟨fun t c d s t2 c2 d2 s2 h => ?_, by decide, by decide, by decide⟩
  simp only [fingerprint, h]

/-- Witness for C9: the congruence applied at the colliding tuples. -/
theorem fingerprint_separator_collision_witness :
    fingerprint "x|" "y" "Unknown" "Отказ" = fingerprint "x" "|y" "Unknown" "Отказ" :=
  fingerprint_separator_collision.1 "x|" "y" "Unknown" "Отказ" "x" "|y" "Unknown" "Отказ"
    (by decide)

theorem isStatus_iff (l : List Char) :
    isStatus l = true ↔ ∃ s ∈ VALID_STATUSES, l = s.toList := by
  simp [isStatus, List.any_eq_true]

theorem flushRecord_status (block : List (List Char)) (st : List Char) :
    (flushRecord block st).status = String.mk st := rfl

theorem segmentGo_status (lines : List (List Char)) :
    ∀ block r, r ∈ segmentGo lines block → r.status ∈ VALID_STATUSES := by
  induction lines with
  | nil => intro block r h; simp [segmentGo] at h
  | cons l ls ih =>
    intro block r h
    by_cases hs : isStatus l
    · rw [segmentGo, if_pos hs] at h
      rcases List.mem_append.mp h with h1 | h2
      · rcases hbe : block.isEmpty with _ | _
        · rw [hbe] at h1
          simp at h1
          obtain ⟨s, hsmem, hls⟩ := (isStatus_iff l).mp hs
          rw [h1, flushRecord_status, hls, string_mk_toList]
          exact hsmem
        · rw [hbe] at h1
          simp at h1
      · exact ih [] r h2
    · rw [segmentGo, if_neg hs] at h
      exact ih (block ++ [l]) r h

theorem segmentGo_length (lines : List (List Char)) :
    ∀ block, (segmentGo lines block).length = countQualifying lines (!block.isEmpty) := by
  induction lines with
  | nil => intro block; rfl
  | cons l ls ih =>
    intro block
    by_cases hs : isStatus l
    · cases hbe : block.isEmpty
      · simp [segmentGo, countQualifying, hs, hbe, ih []]
        omega
      · simp [segmentGo, countQualifying, hs, hbe, ih []]
    · have hne : (block ++ [l]).isEmpty = false := by
        cases block <;> rfl
      have := ih (block ++ [l])
      rw [hne] at this
      simp [segmentGo, countQualifying, hs, this]

theorem segmentGo_no_status (lines : List (List Char))
    (h : ∀ l ∈ lines, isStatus l = false) : ∀ block, segmentGo lines block = [] := by
  induction lines with
  | nil => intro block; rfl
  | cons l ls ih =>
    intro block
    have hl := h l (List.mem_cons_self l ls)
    rw [segmentGo, if_neg (by simp [hl])]
    exact ih (fun x hx => h x (List.mem_cons_of_mem l hx)) _

theorem segmentGo_all_status (lines : List (List Char))
    (h : ∀ l ∈ lines, isStatus l = true) : segmentGo lines [] = [] := by
  induction lines with
  | nil => rfl
  | cons l ls ih =>
    have hl := h l (List.mem_cons_self l ls)
    rw [segmentGo, if_pos (by simp [hl])]
    simpa using ih (fun x hx => h x (List.mem_cons_of_mem l hx))

theorem dedupByHash_sublist (rs : List ParsedResponse) :
    ∀ seen, (dedupByHash rs seen).Sublist rs := by
  induction rs with
  | nil => intro seen; simp [dedupByHash]
  | cons r rest ih =>
    intro seen
    by_cases h : r.hash ∈ seen
    · rw [dedupByHash, if_pos h]
      exact (ih seen).trans (List.sublist_cons_self r rest)
    · rw [dedupByHash, if_neg h]
      exact (ih _).cons₂ r

theorem dedupByHash_mem_spec (rs : List ParsedResponse) :
    ∀ seen r, r ∈ dedupByHash rs seen →
      r.hash ∉ seen ∧ rs.find? (fun x => x.hash == r.hash) = some r := by
  induction rs with
  | nil => intro seen r h; simp [dedupByHash] at h
  | cons x rest ih =>
    intro seen r h
    by_cases hx : x.hash ∈ seen
    · rw [dedupByHash, if_pos hx] at h
      obtain ⟨hns, hfind⟩ := ih seen r h
      refine ⟨hns, ?_⟩
      rw [List.find?_cons_of_neg]
      · exact hfind
      · intro hbe
        exact hns ((beq_iff_eq.mp hbe) ▸ hx)
    · rw [dedupByHash, if_neg hx] at h
      rcases List.mem_cons.mp h with rfl | h2
      · refine ⟨hx, ?_⟩
        rw [List.find?_cons_of_pos]
        simp
      · obtain ⟨hns, hfind⟩ := ih _ r h2
        refine ⟨fun hseen => hns (List.mem_cons_of_mem _ hseen), ?_⟩
        rw [List.find?_cons_of_neg]
        · exact hfind
        · intro hbe
          exact hns (by rw [← beq_iff_eq.mp hbe]; exact List.mem_cons_self _ _)

theorem dedupByHash_pairwise (rs : List ParsedResponse) :
    ∀ seen, (dedupByHash rs seen).Pairwise (fun a b => a.hash ≠ b.hash) := by
  induction rs with
  | nil => intro seen; simp [dedupByHash]
  | cons x rest ih =>
    intro seen
    by_cases hx : x.hash ∈ seen
    · rw [dedupByHash, if_pos hx]
      exact ih seen
    · rw [dedupByHash, if_neg hx]
      refine List.Pairwise.cons (fun b hb => ?_) (ih _)
      have hb2 := (dedupByHash_mem_spec rest _ b hb).1
      exact fun he => hb2 (by rw [← he]; exact List.mem_cons_self _ _)

theorem dedupByHash_covers (rs : List ParsedResponse) :
    ∀ seen r, r ∈ rs →
      r.hash ∈ seen ∨ ∃ q ∈ dedupByHash rs seen, q.hash = r.hash := by
  induction rs with
  | nil => intro seen r h; simp at h
  | cons x rest ih =>
    intro seen r h
    by_cases hx : x.hash ∈ seen
    · rw [dedupByHash, if_pos hx]
      rcases List.mem_cons.mp h with rfl | h2
      · exact Or.inl hx
      · exact ih seen r h2
    · rw [dedupByHash, if_neg hx]
      rcases List.mem_cons.mp h with rfl | h2
      · exact Or.inr ⟨r, List.mem_cons_self _ _, rfl⟩
      · rcases ih (x.hash :: seen) r h2 with hseen | ⟨q, hq, hqe⟩
        · rcases List.mem_cons.mp hseen with he | hs2
          · exact Or.inr ⟨x, List.mem_cons_self _ _, he.symm⟩
          · exact Or.inl hs2
        · exact Or.inr ⟨q, List.mem_cons_of_mem _ hq, hqe⟩

/-- C1: segmentation flushes exactly one record per status line preceded by
at least one accumulated non-status line; every flushed record carries one
of the six status labels; input without status lines (trailing block) and
input of only status lines (empty blocks) yield nothing; the concrete
boundary example yields exactly the two claimed records. -/
theorem segmentation_blocks (text : String) :
    ((parseHHBuffer "Foo\nBar\nПросмотрен\nBaz\nQux\nОтказ").map fun r =>
        (r.title, r.company, r.status, r.responseDate)) =
      [("Foo", "Bar", "Просмотрен", "Unknown"), ("Baz", "Qux", "Отказ", "Unknown")] ∧
    (flushedRecords text).length = countQualifying (cleanLines text) false ∧
    (∀ r ∈ flushedRecords text, r.status ∈ VALID_STATUSES) ∧
    ((∀ l ∈ cleanLines text, isStatus l = false) → parseHHBuffer text = []) ∧
    ((∀ l ∈ cleanLines text, isStatus l = true) → parseHHBuffer text = []) := by
  refine ⟨by decide, ?_, fun r h => segmentGo_status _ _ r h, fun h => ?_, fun h => ?_⟩
  · simpa using segmentGo_length (cleanLines text) []
  · unfold parseHHBuffer flushedRecords
    rw [segmentGo_no_status _ h]
    rfl
  · unfold parseHHBuffer flushedRecords
    rw [segmentGo_all_status _ h]
    rfl

/-- Witness for C1 at concrete inputs. -/
theorem segmentation_blocks_witness :
    (flushRecord ["Foo".toList, "Bar".toList] "Просмотрен".toList).status ∈ VALID_STATUSES ∧
    parseHHBuffer "Foo\nBar\nBaz" = [] ∧
    parseHHBuffer "Отказ\nОтказ\nТестовое" = [] :=
  ⟨(segmentation_blocks "Foo\nBar\nПросмотрен\nBaz\nQux\nОтказ").2.2.1 _ (by decide),
   (segmentation_blocks "Foo\nBar\nBaz").2.2.2.1 (by decide),
   (segmentation_blocks "Отказ\nОтказ\nТестовое").2.2.2.2 (by decide)⟩

/-- C2, the code at the claimed behavior: a plain date line such as
"5 февраля" is NOT recognized — the trailing `\b` of the date regex cannot
hold after a Cyrillic month (Cyrillic letters are not JS word characters),
so `extractDate` misses it, `responseDate` falls back to "Unknown" and the
date line is consumed as the title.  The today/yesterday exact match and
the "Unknown" sentinel do work as claimed. -/
theorem date_extraction_code_behavior :
    extractDate ["5 февраля".toList] = none ∧
    ((parseHHBuffer "5 февраля\nSenior Product Manager\nAcme\nОтказ").map fun r =>
        (r.responseDate, r.title, r.company)) =
      [("Unknown", "5 февраля", "Senior Product Manager")] ∧
    extractDate ["Сегодня".toList] = some "Сегодня" ∧
    extractDate ["Foo".toList, "Bar".toList] = none :=
  ⟨by decide, by decide, by decide, by decide⟩

/-- C3: within one `parseHHBuffer` call the returned fingerprints are
pairwise distinct, the result is an order-preserving sublist of the flushed
records in which exactly the first record of each fingerprint is kept and
every flushed fingerprint is still represented; feeding the same block
twice yields one record. -/
theorem within_call_dedup (text : String) :
    (parseHHBuffer text).Pairwise (fun a b => a.hash ≠ b.hash) ∧
    (parseHHBuffer text).Sublist (flushedRecords text) ∧
    (∀ r ∈ parseHHBuffer text,
      (flushedRecords text).find? (fun x => x.hash == r.hash) = some r) ∧
    (∀ r ∈ flushedRecords text, ∃ q ∈ parseHHBuffer text, q.hash = r.hash) ∧
    (flushedRecords "Foo\nBar\nОтказ\nFoo\nBar\nОтказ").length = 2 ∧
    (parseHHBuffer "Foo\nBar\nОтказ\nFoo\nBar\nОтказ").length = 1 := by
  refine ⟨dedupByHash_pairwise _ [], dedupByHash_sublist _ [],
    fun r h => (dedupByHash_mem_spec _ [] r h).2, fun r h => ?_, by decide, by decide⟩
  rcases dedupByHash_covers _ [] r h with hseen | hex
  · simp at hseen
  · exact hex

/-- Witness for C3: first-wins lookup of the record of the duplicated block. -/
theorem within_call_dedup_witness :
    (flushedRecords "Foo\nBar\nОтказ\nFoo\nBar\nОтказ").find?
        (fun x => x.hash == (flushRecord ["Foo".toList, "Bar".toList] "Отказ".toList).hash) =
      some (flushRecord ["Foo".toList, "Bar".toList] "Отказ".toList) :=
  (within_call_dedup "Foo\nBar\nОтказ\nFoo\nBar\nОтказ").2.2.1 _ (by decide)

/-- C10 counterexample: a title line containing "5 мая" in its middle is
NOT consumed as the date — the regex match additionally needs an ASCII word
character right after the month — so the claimed input keeps the line as
the title and yields responseDate "Unknown". -/
theorem unanchored_date_counterexample :
    isDateLine "Продукт 5 мая запуск".toList = false ∧
    ((parseHHBuffer "Продукт 5 мая запуск\nAcme\nОтказ").map fun r =>
        (r.responseDate, r.title, r.company)) =
      [("Unknown", "Продукт 5 мая запуск", "Acme")] :=
  ⟨by decide, by decide⟩

/-- C10 amended: a line is a date line only when the day–month occurrence
has its month run immediately followed by an ASCII word character; in
particular a whole-line date `"<d> <month>"` never matches (for every day
1–31 and every month), while a mid-line occurrence followed by an ASCII
letter does match, supplies the lowercased "day month" fragment as
responseDate, and is excluded from the title/company candidates. -/
theorem unanchored_date_amended :
    ((List.range 31).all fun d => MONTHS.all fun mon =>
      !(isDateLine ((Nat.repr (d + 1)) ++ " " ++ mon).toList)) = true ∧
    isDateLine "отклик 5 маяz".toList = true ∧
    extractDate ["ОТКЛИК 5 МАЯZ".toList] = some "5 мая" ∧
    ((parseHHBuffer "Продукт 5 маяk релиз\nРоль\nФирма\nОтказ").map fun r =>
        (r.responseDate, r.title, r.company)) =
      [("5 мая", "Роль", "Фирма")] :=
  ⟨by decide, by decide, by decide, by decide⟩

/-- C7: when the `addResponses` insert fails during finalize, the flow
stops before `clearBuffer`, leaving the whole buffer table (and the
responses table) unchanged; the buffer row is deleted only on the success
path, after the records have been persisted. -/
theorem finalize_error_atomicity (st : Store) (u : Nat) :
    ((handleDoneImport true st u).1.buffers = st.buffers ∧
      (handleDoneImport true st u).1.responses = st.responses) ∧
    (getBuffer st.buffers u ≠ "" →
      (parseHHBuffer (getBuffer st.buffers u)).isEmpty = false →
      (handleDoneImport true st u).2 = false ∧
      (handleDoneImport false st u).1.buffers u = none ∧
      (handleDoneImport false st u).1.responses =
        (addResponses st.responses u (parseHHBuffer (getBuffer st.buffers u))).1) := by
  constructor
  · by_cases h1 : getBuffer st.buffers u = "" <;>
      by_cases h2 : (parseHHBuffer (getBuffer st.buffers u)).isEmpty <;>
        simp [handleDoneImport, h1, h2]
  · intro h1 h2
    refine ⟨?_, ?_, ?_⟩ <;> simp [handleDoneImport, h1, h2, clearBuffer]

/-- Witness for C7 at a concrete one-user store. -/
theorem finalize_error_atomicity_witness :
    (handleDoneImport true
        ⟨appendToBuffer emptyBuffers 1 "Продакт\nAcme\nОтказ", []⟩ 1).2 = false ∧
    (handleDoneImport false
        ⟨appendToBuffer emptyBuffers 1 "Продакт\nAcme\nОтказ", []⟩ 1).1.buffers 1 = none :=
  ⟨((finalize_error_atomicity ⟨appendToBuffer emptyBuffers 1 "Продакт\nAcme\nОтказ", []⟩ 1).2
      (by decide) (by decide)).1,
   ((finalize_error_atomicity ⟨appendToBuffer emptyBuffers 1 "Продакт\nAcme\nОтказ", []⟩ 1).2
      (by decide) (by decide)).2.1⟩

/-- C8: the top-companies aggregate over the rows of the window has at most five
entries, is ordered by descending count with company-name order among equal
counts, every entry carries the true count of a company occurring in the
window, and every kept count is at least the count of each excluded group. -/
theorem top_companies_spec (companies : List String) :
    (topCompanies companies).length ≤ 5 ∧
    (topCompanies companies).Sorted topOrder ∧
    (∀ p ∈ topCompanies companies, p.1 ∈ companies ∧ p.2 = companies.count p.1) ∧
    (∀ p ∈ topCompanies companies, ∀ q ∈ companyCounts companies,
      q ∉ topCompanies companies → q.2 ≤ p.2) := by
  have hsorted := List.sorted_insertionSort topOrder (companyCounts companies)
  have hperm := List.perm_insertionSort topOrder (companyCounts companies)
  refine ⟨?_, ?_, fun p hp => ?_, fun p hp q hq hqn => ?_⟩
  · unfold topCompanies
    exact List.length_take_le 5 _
  · exact hsorted.sublist (List.take_sublist 5 _)
  · have hp2 : p ∈ companyCounts companies :=
      hperm.mem_iff.mp (List.mem_of_mem_take hp)
    obtain ⟨c, hc, hce⟩ := List.mem_map.mp hp2
    rw [← hce]
    exact ⟨List.mem_dedup.mp hc, rfl⟩
  · have hq2 : q ∈ (companyCounts companies).insertionSort topOrder :=
      hperm.mem_iff.mpr hq
    rw [← List.take_append_drop 5 ((companyCounts companies).insertionSort topOrder)]
      at hq2
    rcases List.mem_append.mp hq2 with hqt | hqd
    · exact absurd hqt hqn
    · have hpw : List.Pairwise topOrder
          (((companyCounts companies).insertionSort topOrder).take 5 ++
            ((companyCounts companies).insertionSort topOrder).drop 5) := by
        rw [List.take_append_drop]
        exact hsorted
      rcases (List.pairwise_append.mp hpw).2.2 p hp q hqd with hlt | ⟨heq, _⟩
      · exact le_of_lt hlt
      · exact le_of_eq heq.symm

/-- Witness for C8 at a concrete window. -/
theorem top_companies_spec_witness :
    ("a", 3) ∈ topCompanies ["a", "b", "a", "c", "b", "a", "d", "e", "f", "g"] ∧
    (("f", 1) : String × Nat).2 ≤ (("a", 3) : String × Nat).2 :=
  ⟨by decide,
   (top_companies_spec ["a", "b", "a", "c", "b", "a", "d", "e", "f", "g"]).2.2.2
     ("a", 3) (by decide) ("f", 1) (by decide) (by decide)⟩

end HHTracker
